import Mathlib

/-!
Verification of the multi-entry widget asset build pipeline
(`web/scripts/build-widget-assets.js`).

The script is embedded shallowly:
* Filesystem trees are modelled by `FsNode`; paths are component lists
  (`path.join` is list append, `path.dirname` is `dropLast`,
  `path.relative` is `relativeComponents`).  The model's root corresponds
  to the script's `WEB_ROOT`, so `SRC_ROOT = ["src"]` and
  `OUT_DIR = ["dist", "widgets"]` mirror the script's constants.
* The Vite bundler is an external black box; each invocation is abstracted
  by a `BuildOutcome` oracle saying whether `build` throws and which of the
  `<name>.js` / `<name>.css` output files it leaves in the output directory.
* The regular expressions of the script (`getElementById\s*\(\s*['"]([^'"]+)['"]\s*\)`,
  `import\s+['"]<escaped path>['"]`, `/\.module\./i`) are deterministic at
  any given start position, so they are embedded as explicit scanners over
  `List Char`.  `escapeForRegex` makes the interpolated path a literal,
  which is how the scanner treats it.  JS `\s` is modelled by its ASCII
  subset, which covers the source texts involved.
-/

namespace WidgetBuild

/-- A filesystem tree: a file with contents, or a directory with a named
children list (the list order models the order `fs.readdirSync` reports). -/
inductive FsNode where
  | file (content : String)
  | dir (children : List (String × FsNode))
deriving Inhabited

/-- Resolve a component path inside a tree (first child wins on a duplicate
name, as a real directory cannot contain duplicates anyway). -/
def FsNode.lookup : FsNode → List String → Option FsNode
  | n, [] => some n
  | .file _, _ :: _ => none
  | .dir cs, name :: rest =>
    match cs.find? (fun c => c.1 == name) with
    | none => none
    | some c => c.2.lookup rest

/-- Models `fs.existsSync`: true for files and directories alike. -/
def fsExists (fs : FsNode) (p : List String) : Bool :=
  (fs.lookup p).isSome

/-- Models `fs.readFileSync(p, 'utf8')`, as an `Option` (readFileSync throws on a
missing path or a directory). -/
def readFileAt (fs : FsNode) (p : List String) : Option String :=
  match fs.lookup p with
  | some (.file s) => some s
  | _ => none

/-- Models `fs.readdirSync(p, { withFileTypes: true })`; the pipeline only calls it
on directories it has checked (or created) beforehand. -/
def childrenOf (fs : FsNode) (p : List String) : List (String × FsNode) :=
  match fs.lookup p with
  | some (.dir cs) => cs
  | _ => []

/-- Replace (or insert) the child `name` of a children list, keeping its
position; a missing child is appended. -/
def updateChild (cs : List (String × FsNode)) (name : String)
    (f : Option FsNode → FsNode) : List (String × FsNode) :=
  match cs with
  | [] => [(name, f none)]
  | c :: rest =>
    if c.1 == name then (name, f (some c.2)) :: rest
    else c :: updateChild rest name f

/-- The children of a directory node (a file has none). -/
def FsNode.childrenD : FsNode → List (String × FsNode)
  | .dir cs => cs
  | .file _ => []

/-- Write the node `v` at path `p`, creating intermediate directories
(`mkdirSync`/`writeFileSync` under an existing directory; the pipeline only
writes beneath directories it created). -/
def FsNode.setPath (n : FsNode) (p : List String) (v : FsNode) : FsNode :=
  match p with
  | [] => v
  | name :: rest =>
    .dir (updateChild n.childrenD name (fun old => FsNode.setPath (old.getD (.dir [])) rest v))

/-- Apply `f` to the child `name` of a children list, if present. -/
def mapChild (cs : List (String × FsNode)) (name : String)
    (f : FsNode → FsNode) : List (String × FsNode) :=
  match cs with
  | [] => []
  | c :: rest =>
    if c.1 == name then (c.1, f c.2) :: rest
    else c :: mapChild rest name f

/-- Models `fs.rmSync(p, { recursive: true, force: true })`: drop the subtree at
`p`, silently doing nothing when it does not exist. -/
def FsNode.removePath (n : FsNode) (p : List String) : FsNode :=
  match p with
  | [] => n
  | name :: rest =>
    match n with
    | .file c => .file c
    | .dir cs =>
      match rest with
      | [] => .dir (cs.filter fun c => !(c.1 == name))
      | _ :: _ => .dir (mapChild cs name (fun child => child.removePath rest))

/-! ### Path constants of the script -/

/-- Models `SRC_ROOT = path.resolve(WEB_ROOT, 'src')`, relative to the model root. -/
def SRC_ROOT : List String := ["src"]

/-- Models `OUT_DIR = path.resolve(WEB_ROOT, 'dist', 'widgets')`. -/
def OUT_DIR : List String := ["dist", "widgets"]

/-- Models `path.join(WEB_ROOT, 'dist')`, the anchor the manifest paths are made
relative to. -/
def DIST_DIR : List String := ["dist"]

/-- Models `MANIFEST_PATH = path.join(OUT_DIR, 'manifest.json')`. -/
def MANIFEST_PATH : List String := OUT_DIR ++ ["manifest.json"]

/-- Models `ENTRY_FILES`, in the exact source order. -/
def ENTRY_FILES : List String :=
  ["index.tsx", "index.jsx", "index.ts", "index.js",
   "main.tsx", "main.jsx", "main.ts", "main.js"]

/-- Models `CSS_EXTENSIONS` (a JS `Set`; only membership is used). -/
def CSS_EXTENSIONS : List String := [".css", ".pcss", ".scss", ".sass"]

/-- Models `GLOBAL_CSS_CANDIDATES`, with `path.join('styles', 'index.css')` already
split into components. -/
def GLOBAL_CSS_CANDIDATES : List (List String) :=
  [["index.css"], ["global.css"], ["styles", "index.css"]]

/-! ### Entry-file resolution -/

/-- The loop body of `resolveEntryFile`: try each candidate basename in
order, returning the first whose joined path exists. -/
def firstEntryIn (fs : FsNode) (entryDir : List String) : List String → Option (List String)
  | [] => none
  | c :: rest =>
    if fsExists fs (entryDir ++ [c]) then some (entryDir ++ [c])
    else firstEntryIn fs entryDir rest

/-- Models `resolveEntryFile(entryDir)`: first existing candidate of `ENTRY_FILES`,
else `null`. -/
def resolveEntryFile (fs : FsNode) (entryDir : List String) : Option (List String) :=
  firstEntryIn fs entryDir ENTRY_FILES

/-- The candidate order the specification describes (typed-with-markup,
then typed, then untyped-with-markup, then untyped, for `index` then
`main`).  This definition follows the specification's words, for comparison
with the source's `ENTRY_FILES` order. -/
def SPEC_ENTRY_FILES : List String :=
  ["index.tsx", "index.ts", "index.jsx", "index.js",
   "main.tsx", "main.ts", "main.jsx", "main.js"]

/-- Entry resolution as the specification orders it (comparison definition,
not part of the source). -/
def specResolveEntryFile (fs : FsNode) (entryDir : List String) : Option (List String) :=
  firstEntryIn fs entryDir SPEC_ENTRY_FILES

theorem firstEntryIn_eq_some (fs : FsNode) (entryDir : List String) :
    ∀ (cands : List String) (p : List String),
      firstEntryIn fs entryDir cands = some p ↔
        ∃ l₁ c l₂, cands = l₁ ++ c :: l₂ ∧ p = entryDir ++ [c] ∧
          fsExists fs (entryDir ++ [c]) = true ∧
          ∀ c' ∈ l₁, fsExists fs (entryDir ++ [c']) = false := by
  intro cands
  induction cands with
  | nil =>
    intro p
    simp only [firstEntryIn]
    constructor
    · intro h; cases h
    · rintro ⟨l₁, c, l₂, hsplit, -⟩
      exact absurd hsplit (by simp)
  | cons c rest ih =>
    intro p
    simp only [firstEntryIn]
    by_cases hc : fsExists fs (entryDir ++ [c]) = true
    · rw [if_pos hc]
      constructor
      · intro h
        exact ⟨[], c, rest, rfl, (Option.some_inj.mp h).symm, hc, by simp⟩
      · rintro ⟨l₁, c', l₂, hsplit, hp, hex, hnone⟩
        cases l₁ with
        | nil =>
          simp only [List.nil_append, List.cons.injEq] at hsplit
          rw [hp, hsplit.1]
        | cons a l₁' =>
          simp only [List.cons_append, List.cons.injEq] at hsplit
          have : fsExists fs (entryDir ++ [a]) = false := hnone a (by simp)
          rw [hsplit.1] at hc
          simp [hc] at this
    · rw [if_neg hc]
      rw [ih p]
      replace hc : fsExists fs (entryDir ++ [c]) = false := by
        cases h : fsExists fs (entryDir ++ [c]) with
        | true => exact absurd h hc
        | false => rfl
      constructor
      · rintro ⟨l₁, c', l₂, hsplit, hp, hex, hnone⟩
        refine ⟨c :: l₁, c', l₂, by simp [hsplit], hp, hex, ?_⟩
        intro a ha
        rcases List.mem_cons.mp ha with h | h
        · rw [h]; exact hc
        · exact hnone a h
      · rintro ⟨l₁, c', l₂, hsplit, hp, hex, hnone⟩
        cases l₁ with
        | nil =>
          simp only [List.nil_append, List.cons.injEq] at hsplit
          rw [hsplit.1] at hc
          simp [hc] at hex
        | cons a l₁' =>
          simp only [List.cons_append, List.cons.injEq] at hsplit
          refine ⟨l₁', c', l₂, hsplit.2, hp, hex, ?_⟩
          intro b hb
          exact hnone b (List.mem_cons_of_mem a hb)

/-- C1 (amended): `resolveEntryFile` returns the first existing file under
the source's candidate order: for each of the basenames `index` (first) and
`main`, the typed-with-markup extension is tried first, then
untyped-with-markup, then typed, then untyped. -/
theorem resolveEntryFile_first_existing (fs : FsNode) (entryDir p : List String) :
    resolveEntryFile fs entryDir = some p ↔
      ∃ l₁ c l₂,
        ["index.tsx", "index.jsx", "index.ts", "index.js",
         "main.tsx", "main.jsx", "main.ts", "main.js"] = l₁ ++ c :: l₂ ∧
        p = entryDir ++ [c] ∧ fsExists fs (entryDir ++ [c]) = true ∧
        ∀ c' ∈ l₁, fsExists fs (entryDir ++ [c']) = false :=
  firstEntryIn_eq_some fs entryDir ENTRY_FILES p

/-- A directory holding `index.jsx` and `index.ts` (and nothing else). -/
def cexFsJsxTs : FsNode :=
  .dir [("src", .dir [("w", .dir [("index.jsx", .file ""), ("index.ts", .file "")])])]

/-- C1 counterexample: on a directory containing `index.jsx` (untyped with
markup) and `index.ts` (typed), the code resolves to `index.jsx`, while the
specification's priority order (typed before untyped-with-markup) would
resolve to `index.ts`. -/
theorem resolveEntryFile_spec_order_cex :
    resolveEntryFile cexFsJsxTs ["src", "w"] = some ["src", "w", "index.jsx"] ∧
    specResolveEntryFile cexFsJsxTs ["src", "w"] = some ["src", "w", "index.ts"] ∧
    resolveEntryFile cexFsJsxTs ["src", "w"] ≠ specResolveEntryFile cexFsJsxTs ["src", "w"] := by
  decide

/-- A directory holding `main.tsx` (typed with markup) and `index.js`
(untyped); the basename-major candidate order picks `index.js`. -/
def cexFsBasename : FsNode :=
  .dir [("src", .dir [("w", .dir [("main.tsx", .file ""), ("index.js", .file "")])])]

/-- C2 counterexample: this directory contains both a typed-markup (`.tsx`)
entry file and an untyped (`.js`) entry file, yet resolution returns the
untyped `index.js`, not a typed-markup file — the candidate order is
basename-major (`index.*` before `main.*`), not extension-major. -/
theorem resolveEntryFile_tsx_beats_js_cex :
    fsExists cexFsBasename ["src", "w", "main.tsx"] = true ∧
    fsExists cexFsBasename ["src", "w", "index.js"] = true ∧
    resolveEntryFile cexFsBasename ["src", "w"] = some ["src", "w", "index.js"] ∧
    resolveEntryFile cexFsBasename ["src", "w"] ≠ some ["src", "w", "index.tsx"] ∧
    resolveEntryFile cexFsBasename ["src", "w"] ≠ some ["src", "w", "main.tsx"] := by
  decide

/-- C2 (amended): the typed-markup variant always beats the untyped variant
of the *same* basename: whenever `<b>.tsx` exists in a directory,
resolution never returns `<b>.js` for that directory (`b` being `index` or
`main`). -/
theorem resolveEntryFile_tsx_beats_js_same_basename
    (fs : FsNode) (entryDir : List String) (b cjs ctsx : String)
    (hb : b = "index" ∨ b = "main")
    (hcjs : cjs = b ++ ".js") (hctsx : ctsx = b ++ ".tsx")
    (htsx : fsExists fs (entryDir ++ [ctsx]) = true) :
    resolveEntryFile fs entryDir ≠ some (entryDir ++ [cjs]) := by
  intro h
  rw [resolveEntryFile, firstEntryIn_eq_some] at h
  obtain ⟨l₁, c, l₂, hsplit, hp, -, hnone⟩ := h
  rw [ENTRY_FILES] at hsplit
  have hc : c = cjs := by
    have := List.append_cancel_left hp
    exact (List.cons.injEq _ _ _ _).mp this.symm |>.1
  subst hc hcjs hctsx
  rcases hb with hb | hb
  · subst hb
    -- `index.js` sits at position 3; `index.tsx` must be in `l₁`.
    have hmem : "index.tsx" ∈ l₁ := by
      cases l₁ with
      | nil => simp at hsplit
      | cons a l₁' =>
        simp only [List.cons_append, List.cons.injEq] at hsplit
        rw [← hsplit.1]; exact List.mem_cons_self _ _
    have hlit : ("index" ++ ".tsx" : String) = "index.tsx" := rfl
    rw [hlit] at htsx
    have := hnone _ hmem
    rw [htsx] at this
    cases this
  · subst hb
    -- `main.js` sits last; `main.tsx` must be in `l₁`.
    have hmem : "main.tsx" ∈ l₁ := by
      cases l₁ with
      | nil => simp at hsplit
      | cons a₀ l₀ =>
        simp only [List.cons_append, List.cons.injEq] at hsplit
        obtain ⟨ha₀, hsplit⟩ := hsplit
        cases l₀ with
        | nil => simp at hsplit
        | cons a₁ l₁' =>
          simp only [List.cons_append, List.cons.injEq] at hsplit
          obtain ⟨ha₁, hsplit⟩ := hsplit
          cases l₁' with
          | nil => simp at hsplit
          | cons a₂ l₂' =>
            simp only [List.cons_append, List.cons.injEq] at hsplit
            obtain ⟨ha₂, hsplit⟩ := hsplit
            cases l₂' with
            | nil => simp at hsplit
            | cons a₃ l₃' =>
              simp only [List.cons_append, List.cons.injEq] at hsplit
              obtain ⟨ha₃, hsplit⟩ := hsplit
              cases l₃' with
              | nil => simp at hsplit
              | cons a₄ l₄' =>
                simp only [List.cons_append, List.cons.injEq] at hsplit
                rw [← hsplit.1]
                exact List.mem_cons_of_mem _ (List.mem_cons_of_mem _
                  (List.mem_cons_of_mem _ (List.mem_cons_of_mem _ (List.mem_cons_self _ _))))
    have hlit : ("main" ++ ".tsx" : String) = "main.tsx" := rfl
    rw [hlit] at htsx
    have := hnone _ hmem
    rw [htsx] at this
    cases this

/-- A directory holding both `index.tsx` and `index.js`. -/
def wFsTsxJs : FsNode :=
  .dir [("src", .dir [("w", .dir [("index.tsx", .file ""), ("index.js", .file "")])])]

theorem resolveEntryFile_tsx_beats_js_witness :
    resolveEntryFile wFsTsxJs ["src", "w"] ≠ some ["src", "w", "index.js"] :=
  resolveEntryFile_tsx_beats_js_same_basename wFsTsxJs ["src", "w"]
    "index" "index.js" "index.tsx" (Or.inl rfl) (by decide) (by decide) (by decide)

/-! ### Root-id detection (`detectRootId`)

The script matches `/getElementById\s*\(\s*['"]([^'"]+)['"]\s*\)/` against
the entry source and takes the first match's capture group.  At any fixed
start position the pattern is deterministic (each greedy piece is bounded
by a character the piece itself cannot consume), so the match is embedded
as a parse of the suffix beginning at that position; the leftmost-match
rule of `String.prototype.match` is the scan over successive suffixes. -/

/-- The ASCII part of the JS `\s` character class. -/
def isJsWs (c : Char) : Bool :=
  c = ' ' || c = '\t' || c = '\n' || c = '\r' || c = '\x0b' || c = '\x0c'

/-- The JS character class `['"]` (either quote kind; the regex does not
require the two quotes to match each other). -/
def isQuote (c : Char) : Bool :=
  c = '"' || c.toNat = 39

/-- Consume an exact literal off the front of a character list. -/
def dropLit : List Char → List Char → Option (List Char)
  | [], cs => some cs
  | _ :: _, [] => none
  | p :: ps, c :: cs => if p = c then dropLit ps cs else none

/-- Attempt the `getElementById` pattern at the start of `cs`; on success
return the capture group `[^'"]+` (the quoted argument). -/
def matchGetByIdAt (cs : List Char) : Option String :=
  match dropLit "getElementById".toList cs with
  | none => none
  | some r₀ =>
    match r₀.dropWhile isJsWs with
    | '(' :: r₁ =>
      match r₁.dropWhile isJsWs with
      | q₁ :: r₂ =>
        if isQuote q₁ then
          let content := r₂.takeWhile (fun c => !(isQuote c))
          match r₂.dropWhile (fun c => !(isQuote c)) with
          | _ :: r₃ =>
            if content.isEmpty then none
            else
              match r₃.dropWhile isJsWs with
              | ')' :: _ => some (String.mk content)
              | _ => none
          | [] => none
        else none
      | [] => none
    | _ => none

/-- Leftmost match of the pattern: try every start position in order. -/
def scanRootId : List Char → Option String
  | [] => none
  | c :: cs =>
    match matchGetByIdAt (c :: cs) with
    | some s => some s
    | none => scanRootId cs

/-- Models `detectRootId(entrySource, fallbackName)`. -/
def detectRootId (entrySource fallbackName : String) : String :=
  (scanRootId entrySource.toList).getD (fallbackName ++ "-root")

theorem scanRootId_spec (cs : List Char) :
    (∃ r, scanRootId cs = some r ∧
      ∃ k, matchGetByIdAt (cs.drop k) = some r ∧
        ∀ j < k, matchGetByIdAt (cs.drop j) = none) ∨
    (scanRootId cs = none ∧ ∀ k, matchGetByIdAt (cs.drop k) = none) := by
  induction cs with
  | nil =>
    right
    refine ⟨rfl, fun k => ?_⟩
    rw [List.drop_nil]
    rfl
  | cons c rest ih =>
    cases hm : matchGetByIdAt (c :: rest) with
    | some s =>
      left
      refine ⟨s, ?_, 0, by simpa using hm, by omega⟩
      simp only [scanRootId, hm]
    | none =>
      have hscan : scanRootId (c :: rest) = scanRootId rest := by
        simp only [scanRootId, hm]
      rcases ih with ⟨r, hr, k, hk, hlt⟩ | ⟨hnone, hall⟩
      · left
        refine ⟨r, by rw [hscan, hr], k + 1, by simpa using hk, ?_⟩
        intro j hj
        cases j with
        | zero => simpa using hm
        | succ j' =>
          have : j' < k := by omega
          simpa using hlt j' this
      · right
        refine ⟨by rw [hscan, hnone], fun k => ?_⟩
        cases k with
        | zero => simpa using hm
        | succ k' => simpa using hall k'

/-- C6: `detectRootId` returns, verbatim, the quoted argument of the first
position in the source where the DOM-container-lookup pattern
(`getElementById` followed by a single quoted string argument) matches; and
when no position matches, it returns the fallback name with `"-root"`
appended. -/
theorem detectRootId_first_match (entrySource fallbackName : String) :
    (∃ k, matchGetByIdAt (entrySource.toList.drop k) = some (detectRootId entrySource fallbackName) ∧
      ∀ j < k, matchGetByIdAt (entrySource.toList.drop j) = none) ∨
    ((∀ k, matchGetByIdAt (entrySource.toList.drop k) = none) ∧
      detectRootId entrySource fallbackName = fallbackName ++ "-root") := by
  rcases scanRootId_spec entrySource.toList with ⟨r, hr, k, hk, hlt⟩ | ⟨hnone, hall⟩
  · left
    refine ⟨k, ?_, hlt⟩
    rw [detectRootId, hr]
    exact hk
  · right
    refine ⟨hall, ?_⟩
    rw [detectRootId, hnone]
    rfl

/-! ### Stylesheet scan (`collectCssFiles`) -/

/-- Does `pat` occur at the start of `cs`? -/
def startsWithSeq : List Char → List Char → Bool
  | [], _ => true
  | _ :: _, [] => false
  | p :: ps, c :: cs => p = c && startsWithSeq ps cs

/-- Does `pat` occur anywhere in `cs`?  (Substring test behind the
`/\.module\./i` regex.) -/
def containsSeq (pat : List Char) : List Char → Bool
  | [] => startsWithSeq pat []
  | c :: rest => startsWithSeq pat (c :: rest) || containsSeq pat rest

/-- JS `s.startsWith(pre)` (on the character lists of the strings). -/
def jsStartsWith (s pre : String) : Bool :=
  startsWithSeq pre.toList s.toList

/-- JS `s.toLowerCase()`, character-wise (the names involved are ASCII). -/
def lowerStr (s : String) : String :=
  String.mk (s.toList.map Char.toLower)

/-- Models `path.extname` restricted to a bare filename (no separators): the
substring from the last `.` to the end, except that a `.` in first
position alone never counts and a dotless name has no extension. -/
def extname (s : String) : String :=
  let cs := s.toList
  match cs.reverse.findIdx? (fun c => c = '.') with
  | none => ""
  | some k =>
    let i := cs.length - 1 - k
    if i = 0 then "" else String.mk (cs.drop i)

/-- Models `CSS_MODULE_REGEX.test(name)`: `name` contains `.module.` in any letter
case. -/
def cssModuleTest (name : String) : Bool :=
  containsSeq ".module.".toList (lowerStr name).toList

/-- The file filter of the scan loop: extension (lower-cased) recognized
and not a scoped "module" stylesheet. -/
def cssFileKeep (name : String) : Bool :=
  CSS_EXTENSIONS.contains (lowerStr (extname name)) && !(cssModuleTest name)

/-- The non-directory entries kept by one pass over a directory listing,
in `readdir` order. -/
def collectHere (cs : List (String × FsNode)) (p : List String) : List (List String) :=
  cs.filterMap fun c =>
    match c.2 with
    | .file _ => if cssFileKeep c.1 then some (p ++ [c.1]) else none
    | .dir _ => none

mutual

/-- The `collectCssFiles` stack loop, shaped as recursion on the tree: the
stack (`queue.pop()`) makes the scan emit the current directory's matching
files in `readdir` order and then exhaust the allowed subdirectories in
reverse `readdir` order. -/
def collectFromNode : FsNode → List String → List (List String)
  | .file _, _ => []
  | .dir cs, p => collectHere cs p ++ (collectBelow cs p).reverse.flatten

/-- Per-child results of the subdirectory recursion, in `readdir` order
(the caller reverses them to account for the stack order); `node_modules`
and hidden directories are skipped. -/
def collectBelow : List (String × FsNode) → List String → List (List (List String))
  | [], _ => []
  | (name, node) :: rest, p =>
    (match node with
     | .file _ => []
     | .dir cs =>
       if name == "node_modules" || jsStartsWith name "." then []
       else collectFromNode (.dir cs) (p ++ [name]))
    :: collectBelow rest p

end

/-- Models `collectCssFiles(startDir)`, run from the directory the path points
at (the pipeline only calls it on an existing entry directory). -/
def collectCssFiles (fs : FsNode) (startDir : List String) : List (List String) :=
  match fs.lookup startDir with
  | some n => collectFromNode n startDir
  | none => []

theorem mem_collectBelow (cs : List (String × FsNode)) (p q : List String) :
    q ∈ (collectBelow cs p).reverse.flatten ↔
      ∃ name node, (name, node) ∈ cs ∧ ¬(name = "node_modules") ∧
        jsStartsWith name "." = false ∧ q ∈ collectFromNode node (p ++ [name]) := by
  induction cs with
  | nil => simp [collectBelow]
  | cons c rest ih =>
    obtain ⟨cname, cnode⟩ := c
    cases cnode with
    | file content =>
      have hstep : (collectBelow ((cname, .file content) :: rest) p).reverse.flatten =
          (collectBelow rest p).reverse.flatten := by
        rw [collectBelow]
        simp
      rw [hstep, ih]
      constructor
      · rintro ⟨n₂, d₂, hmem, hn, hs, hq⟩
        exact ⟨n₂, d₂, List.mem_cons_of_mem _ hmem, hn, hs, hq⟩
      · rintro ⟨n₂, d₂, hmem, hn, hs, hq⟩
        rcases List.mem_cons.mp hmem with heq | hmem'
        · cases heq
          simp [collectFromNode] at hq
        · exact ⟨n₂, d₂, hmem', hn, hs, hq⟩
    | dir cs' =>
      cases hskip : (cname == "node_modules" || jsStartsWith cname ".") with
      | true =>
        have hstep : (collectBelow ((cname, .dir cs') :: rest) p).reverse.flatten =
            (collectBelow rest p).reverse.flatten := by
          rw [collectBelow]
          simp [hskip]
        rw [hstep, ih]
        have hnm : cname = "node_modules" ∨ jsStartsWith cname "." = true := by
          rcases Bool.or_eq_true _ _ |>.mp hskip with h | h
          · exact Or.inl (eq_of_beq h)
          · exact Or.inr h
        constructor
        · rintro ⟨n₂, d₂, hmem, hn, hs, hq⟩
          exact ⟨n₂, d₂, List.mem_cons_of_mem _ hmem, hn, hs, hq⟩
        · rintro ⟨n₂, d₂, hmem, hn, hs, hq⟩
          rcases List.mem_cons.mp hmem with heq | hmem'
          · cases heq
            rcases hnm with h | h
            · exact absurd h hn
            · rw [h] at hs; cases hs
          · exact ⟨n₂, d₂, hmem', hn, hs, hq⟩
      | false =>
        have hstep : (collectBelow ((cname, .dir cs') :: rest) p).reverse.flatten =
            (collectBelow rest p).reverse.flatten ++ collectFromNode (.dir cs') (p ++ [cname]) := by
          rw [collectBelow]
          simp [hskip]
        rw [hstep, List.mem_append, ih]
        have hn1 : ¬(cname = "node_modules") := by
          intro h
          rw [h] at hskip
          simp at hskip
        have hs1 : jsStartsWith cname "." = false := by
          cases h : jsStartsWith cname "." with
          | true => rw [h] at hskip; simp at hskip
          | false => rfl
        constructor
        · rintro (⟨n₂, d₂, hmem, hn, hs, hq⟩ | hq)
          · exact ⟨n₂, d₂, List.mem_cons_of_mem _ hmem, hn, hs, hq⟩
          · exact ⟨cname, .dir cs', List.mem_cons_self _ _, hn1, hs1, hq⟩
        · rintro ⟨n₂, d₂, hmem, hn, hs, hq⟩
          rcases List.mem_cons.mp hmem with heq | hmem'
          · cases heq
            exact Or.inr hq
          · exact Or.inl ⟨n₂, d₂, hmem', hn, hs, hq⟩

theorem collectFromNode_sound (n : FsNode) (p q : List String)
    (h : q ∈ collectFromNode n p) :
    ∃ mid fname, q = p ++ mid ++ [fname] ∧
      (∀ d ∈ mid, ¬(d = "node_modules") ∧ jsStartsWith d "." = false) ∧
      CSS_EXTENSIONS.contains (lowerStr (extname fname)) = true ∧
      cssModuleTest fname = false := by
  match n with
  | .file _ => simp [collectFromNode] at h
  | .dir cs =>
    rw [collectFromNode] at h
    rcases List.mem_append.mp h with h | h
    · obtain ⟨c, hc, heq⟩ := List.mem_filterMap.mp h
      obtain ⟨cname, cnode⟩ := c
      cases cnode with
      | dir cs' => simp at heq
      | file content =>
        simp only at heq
        by_cases hkeep : cssFileKeep cname = true
        · rw [if_pos hkeep] at heq
          have hkeep' := hkeep
          rw [cssFileKeep, Bool.and_eq_true] at hkeep'
          obtain ⟨hext, hmod⟩ := hkeep'
          refine ⟨[], cname, ?_, by simp, hext, by simpa using hmod⟩
          rw [← Option.some_inj.mp heq]
          simp
        · rw [if_neg hkeep] at heq; cases heq
    · rw [mem_collectBelow] at h
      obtain ⟨cname, cnode, hmem, hn, hs, hq⟩ := h
      obtain ⟨mid, fname, heq, hmid, hext, hmod⟩ :=
        collectFromNode_sound cnode (p ++ [cname]) q hq
      refine ⟨cname :: mid, fname, by simp [heq], ?_, hext, hmod⟩
      intro d hd
      rcases List.mem_cons.mp hd with hd | hd
      · rw [hd]; exact ⟨hn, hs⟩
      · exact hmid d hd
termination_by sizeOf n
decreasing_by
  have h1 := List.sizeOf_lt_of_mem hmem
  simp only [Prod.mk.sizeOf_spec] at h1
  simp only [FsNode.dir.sizeOf_spec]
  omega

/-- C10: every path the stylesheet scan returns lies under the start
directory, is reached only through subdirectories that are neither
`node_modules` nor hidden (dot-prefixed), has a recognized stylesheet
extension when compared lower-cased, and is not a `.module.` stylesheet
(letter case ignored). -/
theorem collectCssFiles_only_css (fs : FsNode) (startDir q : List String)
    (h : q ∈ collectCssFiles fs startDir) :
    ∃ mid fname, q = startDir ++ mid ++ [fname] ∧
      (∀ d ∈ mid, ¬(d = "node_modules") ∧ jsStartsWith d "." = false) ∧
      CSS_EXTENSIONS.contains (lowerStr (extname fname)) = true ∧
      cssModuleTest fname = false := by
  rw [collectCssFiles] at h
  cases hl : fs.lookup startDir with
  | none => rw [hl] at h; cases h
  | some n =>
    rw [hl] at h
    exact collectFromNode_sound n startDir q h

/-- A source tree with one widget directory containing a stylesheet, a
`node_modules` cache and a nested stylesheet. -/
def wFsCss : FsNode :=
  .dir [("src", .dir [("w", .dir
    [("index.tsx", .file ""), ("a.css", .file ""),
     ("node_modules", .dir [("x.css", .file "")]),
     ("sub", .dir [("b.SCSS", .file "")])])])]

theorem collectCssFiles_only_css_witness :
    ∃ mid fname, (["src", "w", "sub", "b.SCSS"] : List String) = ["src", "w"] ++ mid ++ [fname] ∧
      (∀ d ∈ mid, ¬(d = "node_modules") ∧ jsStartsWith d "." = false) ∧
      CSS_EXTENSIONS.contains (lowerStr (extname fname)) = true ∧
      cssModuleTest fname = false :=
  collectCssFiles_only_css wFsCss ["src", "w"] ["src", "w", "sub", "b.SCSS"]
    (by
      simp [collectCssFiles, wFsCss, FsNode.lookup, List.find?,
        collectFromNode, collectBelow, collectHere]
      decide)

/-! ### CSS selection (`selectCss` / `filterCssAlreadyImported`) -/

/-- One discovered widget (the record `discoverEntries` pushes). -/
structure Target where
  name : String
  entryFile : List String
  entrySource : String
  rootId : String
deriving DecidableEq

/-- Models `path.relative(base, p)` on resolved component paths: drop the common
prefix, then one `..` per remaining component of `base` followed by the
remaining components of `p`. -/
def relativeComponents (base p : List String) : List String :=
  match base with
  | [] => p
  | b :: bs =>
    match p with
    | [] => (b :: bs).map fun _ => ".."
    | t :: ts =>
      if b == t then relativeComponents bs ts
      else (b :: bs).map (fun _ => "..") ++ t :: ts

/-- Models `split(path.sep).join('/')` of path components. -/
def joinSlash : List String → String
  | [] => ""
  | x :: rest =>
    match rest with
    | [] => x
    | _ :: _ => x ++ "/" ++ joinSlash rest

/-- Models `entrySource.replace(/\r\n/g, '\n')` (global, left-to-right). -/
def normalizeNewlines : List Char → List Char
  | [] => []
  | '\r' :: '\n' :: rest => '\n' :: normalizeNewlines rest
  | c :: rest => c :: normalizeNewlines rest

/-- Attempt `import\s+['"]<rel>['"]` at the start of `cs`; the path is
regex-escaped by `escapeForRegex` in the script, hence matched literally. -/
def importMatchAt (rel : List Char) (cs : List Char) : Bool :=
  match dropLit "import".toList cs with
  | none => false
  | some r₀ =>
    match r₀ with
    | c :: r₁ =>
      if isJsWs c then
        match r₁.dropWhile isJsWs with
        | q :: r₂ =>
          if isQuote q then
            match dropLit rel r₂ with
            | some (q₂ :: _) => isQuote q₂
            | _ => false
          else false
        | [] => false
      else false
    | [] => false

/-- Models `importRegex.test(normalizedSource)`: does the pattern match at any
position? -/
def scanImport (rel : List Char) : List Char → Bool
  | [] => false
  | c :: rest => importMatchAt rel (c :: rest) || scanImport rel rest

/-- The forward-slash form of `cssPath` relative to the entry directory,
prefixed with `./` when it is not already dot-relative — exactly the string
`filterCssAlreadyImported` interpolates into its regex. -/
def normalizedRelative (entryDir cssPath : List String) : String :=
  let rel := joinSlash (relativeComponents entryDir cssPath)
  if jsStartsWith rel "." then rel else "./" ++ rel

/-- Models `filterCssAlreadyImported(cssPaths, entryFile, entrySource)`: drop every
candidate whose normalized relative form the entry source already imports
via a literal import statement. -/
def filterCssAlreadyImported (cssPaths : List (List String))
    (entryFile : List String) (entrySource : String) : List (List String) :=
  let entryDir := entryFile.dropLast
  let nsrc := normalizeNewlines entrySource.toList
  cssPaths.filter fun cssPath =>
    !(scanImport (normalizedRelative entryDir cssPath).toList nsrc)

/-- Models `Array.from(new Set(xs))`: iterate, keeping the first occurrence of
each element, in order. -/
def dedupKeepFirst (seen : List (List String)) : List (List String) → List (List String)
  | [] => []
  | a :: rest =>
    if seen.contains a then dedupKeepFirst seen rest
    else a :: dedupKeepFirst (a :: seen) rest

/-- The existing global stylesheet candidates, in candidate order
(step 1 of `selectCss`). -/
def globalCssList (fs : FsNode) : List (List String) :=
  (GLOBAL_CSS_CANDIDATES.map fun c => SRC_ROOT ++ c).filter fun p => fsExists fs p

/-- Models `selectCss(target)`. -/
def selectCss (fs : FsNode) (target : Target) : List (List String) :=
  let globalCss := globalCssList fs
  let perEntryCss := collectCssFiles fs target.entryFile.dropLast
  let deduped := dedupKeepFirst [] (globalCss ++ perEntryCss)
  filterCssAlreadyImported deduped target.entryFile target.entrySource

theorem dedupKeepFirst_sublist (seen : List (List String)) (l : List (List String)) :
    List.Sublist (dedupKeepFirst seen l) l := by
  induction l generalizing seen with
  | nil => simp [dedupKeepFirst]
  | cons a rest ih =>
    rw [dedupKeepFirst]
    by_cases h : seen.contains a = true
    · rw [if_pos h]
      exact (ih seen).cons a
    · rw [if_neg h]
      exact (ih (a :: seen)).cons₂ a

theorem mem_dedupKeepFirst (seen : List (List String)) (l x : _) :
    x ∈ dedupKeepFirst seen l → x ∈ l ∧ ¬(x ∈ seen) := by
  induction l generalizing seen with
  | nil => intro h; simp [dedupKeepFirst] at h
  | cons a rest ih =>
    intro h
    rw [dedupKeepFirst] at h
    by_cases hc : seen.contains a = true
    · rw [if_pos hc] at h
      obtain ⟨h1, h2⟩ := ih seen h
      exact ⟨List.mem_cons_of_mem _ h1, h2⟩
    · rw [if_neg hc] at h
      rcases List.mem_cons.mp h with heq | hmem
      · refine ⟨by rw [heq]; exact List.mem_cons_self _ _, ?_⟩
        intro hx
        rw [heq] at hx
        exact hc (List.elem_eq_true_of_mem hx)
      · obtain ⟨h1, h2⟩ := ih (a :: seen) hmem
        exact ⟨List.mem_cons_of_mem _ h1, fun hx => h2 (List.mem_cons_of_mem _ hx)⟩

theorem dedupKeepFirst_nodup (seen : List (List String)) (l : List (List String)) :
    (dedupKeepFirst seen l).Nodup := by
  induction l generalizing seen with
  | nil => simp [dedupKeepFirst]
  | cons a rest ih =>
    rw [dedupKeepFirst]
    by_cases hc : seen.contains a = true
    · rw [if_pos hc]
      exact ih seen
    · rw [if_neg hc]
      refine List.nodup_cons.mpr ⟨?_, ih (a :: seen)⟩
      intro hmem
      exact (mem_dedupKeepFirst _ _ _ hmem).2 (List.mem_cons_self _ _)

/-- C5: `selectCss` never returns duplicates; its output is the existing
global stylesheets (in candidate order) followed by the directory-scan
results, as a subsequence of their concatenation; and no returned path's
normalized `./`-relative forward-slash form is matched by a literal import
statement in the (newline-normalized) entry source. -/
theorem selectCss_nodup_ordered_unimported (fs : FsNode) (target : Target) :
    (selectCss fs target).Nodup ∧
    (∃ g p, selectCss fs target = g ++ p ∧ List.Sublist g (globalCssList fs) ∧
      List.Sublist p (collectCssFiles fs target.entryFile.dropLast)) ∧
    ∀ q ∈ selectCss fs target,
      scanImport (normalizedRelative target.entryFile.dropLast q).toList
        (normalizeNewlines target.entrySource.toList) = false := by
  have hsel : selectCss fs target =
      (dedupKeepFirst [] (globalCssList fs ++ collectCssFiles fs target.entryFile.dropLast)).filter
        (fun cssPath =>
          !(scanImport (normalizedRelative target.entryFile.dropLast cssPath).toList
            (normalizeNewlines target.entrySource.toList))) := rfl
  refine ⟨?_, ?_, ?_⟩
  · rw [hsel]
    exact (List.filter_sublist _).nodup (dedupKeepFirst_nodup _ _)
  · have hsub : List.Sublist (selectCss fs target)
        (globalCssList fs ++ collectCssFiles fs target.entryFile.dropLast) := by
      rw [hsel]
      exact (List.filter_sublist _).trans (dedupKeepFirst_sublist _ _)
    exact List.sublist_append_iff.mp hsub
  · intro q hq
    rw [hsel] at hq
    have := List.of_mem_filter hq
    simpa using this

/-! ### The pipeline (`main`)

`main` reads the shared Vite config, then per target composes a per-entry
configuration (virtual entry module, `selectCss` injection, output shaping,
manual-chunk stripping) and awaits `build(entryConfig)`.  Everything that
happens inside the bundler is outside this repository; one invocation is
abstracted by a `BuildOutcome`: whether the returned promise rejects, and
which of the two conventionally named files `<name>.js` / `<name>.css` it
leaves in the output directory. -/

/-- What one opaque `build(entryConfig)` invocation does, as observable by
the orchestrator. -/
structure BuildOutcome where
  throws : Bool
  emitsJs : Bool
  emitsCss : Bool

/-- Observable steps of one run, in execution order. -/
inductive Event where
  | outputReset
  | buildInvoked (name : String)
  | manifestWritten
deriving DecidableEq

/-- One record of the manifest map. -/
structure ManifestEntry where
  js : String
  css : Option String
  rootId : String
deriving DecidableEq

/-- Models `manifest[name] = entry` on a JS object: replace in place, or append a
new key at the end. -/
def setAssoc (m : List (String × ManifestEntry)) (k : String) (v : ManifestEntry) :
    List (String × ManifestEntry) :=
  match m with
  | [] => [(k, v)]
  | (k', v') :: rest => if k' == k then (k, v) :: rest else (k', v') :: setAssoc rest k v

/-- Models `discoverEntries()` over the listing of `SRC_ROOT`; `readFileSync`
throws (aborting `main`) if a resolved entry candidate exists but is not a
regular file. -/
def discoverLoop (fs : FsNode) : List (String × FsNode) → Except String (List Target)
  | [] => .ok []
  | (name, node) :: rest =>
    match node with
    | .file _ => discoverLoop fs rest
    | .dir _ =>
      if jsStartsWith name "." then discoverLoop fs rest
      else
        match resolveEntryFile fs (SRC_ROOT ++ [name]) with
        | none => discoverLoop fs rest
        | some entryFile =>
          match readFileAt fs entryFile with
          | some entrySource =>
            match discoverLoop fs rest with
            | .error e => .error e
            | .ok ts =>
              .ok (⟨name, entryFile, entrySource, detectRootId entrySource name⟩ :: ts)
          | none => .error ("EISDIR: illegal operation on a directory, read " ++ joinSlash entryFile)

/-- Models `discoverEntries()`. -/
def discoverEntries (fs : FsNode) : Except String (List Target) :=
  discoverLoop fs (childrenOf fs SRC_ROOT)

/-- Models `prepareOutput()`: `rmSync` the output directory, then `mkdirSync` it. -/
def prepareOutput (fs : FsNode) : FsNode :=
  (fs.removePath OUT_DIR).setPath OUT_DIR (.dir [])

/-- Models `fs.writeFileSync(p, content)`. -/
def writeFileAt (fs : FsNode) (p : List String) (content : String) : FsNode :=
  fs.setPath p (.file content)

/-- The filesystem effect of one bundler invocation for the widget `name`
(the placeholder contents stand for the emitted bundles, whose bytes no
claim reads). -/
def applyBuild (fs : FsNode) (name : String) (o : BuildOutcome) : FsNode :=
  let fs₁ := if o.emitsJs then writeFileAt fs (OUT_DIR ++ [name ++ ".js"]) "js" else fs
  if o.emitsCss then writeFileAt fs₁ (OUT_DIR ++ [name ++ ".css"]) "css" else fs₁

/-- The `ensureFileExists` message for a missing widget JS output. -/
def missingJsMessage (name : String) : String :=
  "Expected JavaScript output for \"" ++ name ++ "\" not found: " ++
    joinSlash (OUT_DIR ++ [name ++ ".js"])

/-- The per-target loop of `main`: await the build, verify the `<name>.js`
output exists, check for `<name>.css`, record the manifest entry; a
rejected build or a missing JS output aborts the loop with that error.
Returns the events it performed, the resulting tree, and the accumulated
manifest map (or the abort error). -/
def buildLoop (oracle : String → BuildOutcome) :
    List Target → FsNode → List (String × ManifestEntry) →
    List Event × FsNode × Except String (List (String × ManifestEntry))
  | [], fs, acc => ([], fs, .ok acc)
  | t :: rest, fs, acc =>
    let o := oracle t.name
    let fs₁ := applyBuild fs t.name o
    if o.throws then ([.buildInvoked t.name], fs₁, .error "vite build rejected")
    else if fsExists fs₁ (OUT_DIR ++ [t.name ++ ".js"]) = false then
      ([.buildInvoked t.name], fs₁, .error (missingJsMessage t.name))
    else
      let cssExists := fsExists fs₁ (OUT_DIR ++ [t.name ++ ".css"])
      let entry : ManifestEntry :=
        { js := joinSlash (relativeComponents DIST_DIR (OUT_DIR ++ [t.name ++ ".js"]))
          css := if cssExists then
              some (joinSlash (relativeComponents DIST_DIR (OUT_DIR ++ [t.name ++ ".css"])))
            else none
          rootId := t.rootId }
      let r := buildLoop oracle rest fs₁ (setAssoc acc t.name entry)
      (.buildInvoked t.name :: r.1, r.2)

/-- Everything observable about one run: the ordered events, the final
tree, the manifest map the run persisted (when it did), the error `main`
rejected with (if any), and the exit code `main().catch` leaves behind. -/
structure RunResult where
  events : List Event
  fs : FsNode
  manifest : Option (List (String × ManifestEntry))
  error : Option String
  exitCode : Nat

/-- The bytes written to `manifest.json`; the JSON text itself is not
modelled (no claim reads it), only the write and the structured content
(`RunResult.manifest`). -/
def manifestFileBody : String := "json"

/-- Models `main()`, composed with the `main().catch(...)` at the bottom of the
script: a missing source root aborts before anything else; a zero-target
discovery returns early (before `prepareOutput`); otherwise the output
directory is reset and the per-target loop runs, with `manifest.json`
written once after the loop finishes. -/
def runMain (fs₀ : FsNode) (oracle : String → BuildOutcome) : RunResult :=
  if fsExists fs₀ SRC_ROOT = false then
    ⟨[], fs₀, none, some ("Directory not found: " ++ joinSlash SRC_ROOT), 1⟩
  else
    match discoverEntries fs₀ with
    | .error e => ⟨[], fs₀, none, some e, 1⟩
    | .ok [] => ⟨[], fs₀, none, none, 0⟩
    | .ok (t :: ts) =>
      let fs₁ := prepareOutput fs₀
      match buildLoop oracle (t :: ts) fs₁ [] with
      | (evs, fs₂, .error e) => ⟨.outputReset :: evs, fs₂, none, some e, 1⟩
      | (evs, fs₂, .ok m) =>
        ⟨.outputReset :: (evs ++ [.manifestWritten]),
         writeFileAt fs₂ MANIFEST_PATH manifestFileBody, some m, none, 0⟩

/-! ### Output filenames are pairwise distinguishable -/

theorem append_js_inj (a b : String) (h : a ++ ".js" = b ++ ".js") : a = b := by
  have h2 := congrArg String.data h
  rw [String.data_append, String.data_append] at h2
  have h3 := List.append_cancel_right h2
  cases a
  cases b
  exact congrArg String.mk h3

theorem append_js_ne_css (a b : String) : ¬(a ++ ".js" = b ++ ".css") := by
  intro h
  have h2 := congrArg (fun s => s.data.reverse) h
  simp only [String.data_append, List.reverse_append] at h2
  simp at h2

theorem append_css_ne_js (a b : String) : ¬(a ++ ".css" = b ++ ".js") :=
  fun h => append_js_ne_css b a h.symm

theorem append_js_ne_manifest (a : String) : ¬(a ++ ".js" = "manifest.json") := by
  intro h
  have h2 := congrArg (fun s => s.data.reverse) h
  simp only [String.data_append, List.reverse_append] at h2
  simp at h2

theorem append_css_ne_manifest (a : String) : ¬(a ++ ".css" = "manifest.json") := by
  intro h
  have h2 := congrArg (fun s => s.data.reverse) h
  simp only [String.data_append, List.reverse_append] at h2
  simp at h2

/-! ### How `setPath` interacts with `lookup` -/

theorem find?_updateChild_self (cs : List (String × FsNode)) (name : String)
    (f : Option FsNode → FsNode) :
    (updateChild cs name f).find? (fun c => c.1 == name) =
      some (name, f ((cs.find? (fun c => c.1 == name)).map (fun c => c.2))) := by
  induction cs with
  | nil => simp [updateChild, List.find?]
  | cons c rest ih =>
    rw [updateChild]
    by_cases h : (c.1 == name) = true
    · rw [if_pos h]
      simp [List.find?, h]
    · rw [if_neg h]
      have h' : (c.1 == name) = false := by simpa using h
      simp only [List.find?, h']
      exact ih

theorem find?_updateChild_other (cs : List (String × FsNode)) (name key : String)
    (f : Option FsNode → FsNode) (hnk : ¬(name = key)) :
    (updateChild cs name f).find? (fun c => c.1 == key) =
      cs.find? (fun c => c.1 == key) := by
  have hnkb : (name == key) = false := by simp [hnk]
  induction cs with
  | nil => simp [updateChild, List.find?, hnkb]
  | cons c rest ih =>
    rw [updateChild]
    by_cases h : (c.1 == name) = true
    · rw [if_pos h]
      have hc1 : c.1 = name := by simpa using h
      have hck : (c.1 == key) = false := by simp [hc1, hnk]
      simp only [List.find?, hck, hnkb]
    · rw [if_neg h]
      cases hck : (c.1 == key) with
      | true => simp only [List.find?, hck]
      | false =>
        simp only [List.find?, hck]
        exact ih

theorem lookup_dir_nil (q : List String) (hq : ¬(q = [])) :
    FsNode.lookup (.dir []) q = none := by
  cases q with
  | nil => exact absurd rfl hq
  | cons x rest => simp [FsNode.lookup, List.find?]

theorem lookup_childrenD (n : FsNode) (q : List String) (hq : ¬(q = [])) :
    FsNode.lookup (.dir n.childrenD) q = n.lookup q := by
  cases q with
  | nil => exact absurd rfl hq
  | cons x rest =>
    cases n with
    | file c => simp [FsNode.childrenD, FsNode.lookup, List.find?]
    | dir cs => rfl

theorem lookup_setPath_self (p : List String) :
    ∀ (n v : FsNode), (n.setPath p v).lookup p = some v := by
  induction p with
  | nil => intro n v; simp [FsNode.setPath, FsNode.lookup]
  | cons name rest ih =>
    intro n v
    simp only [FsNode.setPath, FsNode.lookup]
    simp only [find?_updateChild_self]
    exact ih _ v

theorem lookup_setPath_under (p : List String) :
    ∀ (q : List String) (n v : FsNode), (n.setPath p v).lookup (p ++ q) = v.lookup q := by
  induction p with
  | nil => intro q n v; simp [FsNode.setPath]
  | cons name rest ih =>
    intro q n v
    simp only [FsNode.setPath, List.cons_append, FsNode.lookup]
    simp only [find?_updateChild_self]
    exact ih q _ v

theorem lookup_setPath_sibling (d : List String) :
    ∀ (n v : FsNode) (a b : String), ¬(a = b) →
      (n.setPath (d ++ [a]) v).lookup (d ++ [b]) = n.lookup (d ++ [b]) := by
  induction d with
  | nil =>
    intro n v a b hab
    simp only [List.nil_append]
    rw [← lookup_childrenD n [b] (by simp)]
    simp only [FsNode.setPath, FsNode.lookup]
    rw [find?_updateChild_other _ _ _ _ hab]
  | cons x d' ih =>
    intro n v a b hab
    simp only [List.cons_append]
    rw [← lookup_childrenD n (x :: (d' ++ [b])) (by simp)]
    simp only [FsNode.setPath, FsNode.lookup]
    simp only [find?_updateChild_self]
    cases hf : n.childrenD.find? (fun c => c.1 == x) with
    | none =>
      simp only [Option.map_none', Option.getD_none]
      rw [ih _ v a b hab]
      exact lookup_dir_nil _ (by simp)
    | some c =>
      simp only [Option.map_some', Option.getD_some]
      exact ih _ v a b hab

theorem fsExists_writeFileAt_self (fs : FsNode) (p : List String) (content : String) :
    fsExists (writeFileAt fs p content) p = true := by
  rw [writeFileAt, fsExists, lookup_setPath_self]
  rfl

theorem fsExists_writeFileAt_sibling (fs : FsNode) (d : List String) (a b : String)
    (content : String) (hab : ¬(a = b)) :
    fsExists (writeFileAt fs (d ++ [a]) content) (d ++ [b]) = fsExists fs (d ++ [b]) := by
  rw [writeFileAt, fsExists, fsExists, lookup_setPath_sibling _ _ _ _ _ hab]

theorem prepareOutput_clean (fs : FsNode) (q : List String) (hq : ¬(q = [])) :
    fsExists (prepareOutput fs) (OUT_DIR ++ q) = false := by
  rw [prepareOutput, fsExists, lookup_setPath_under, lookup_dir_nil _ hq]
  rfl

/-! ### The per-target loop, specified -/

theorem append_css_inj (a b : String) (h : a ++ ".css" = b ++ ".css") : a = b := by
  have h2 := congrArg String.data h
  rw [String.data_append, String.data_append] at h2
  have h3 := List.append_cancel_right h2
  cases a
  cases b
  exact congrArg String.mk h3

/-- A build outcome after which the orchestrator proceeds to the next
target: the promise resolved and the expected JS output exists. -/
def okBuild (o : BuildOutcome) : Bool := !o.throws && o.emitsJs

/-- The manifest record the loop stores for `t` when its build succeeds. -/
def manifestEntryFor (oracle : String → BuildOutcome) (t : Target) : ManifestEntry :=
  { js := joinSlash (relativeComponents DIST_DIR (OUT_DIR ++ [t.name ++ ".js"]))
    css := if (oracle t.name).emitsCss then
        some (joinSlash (relativeComponents DIST_DIR (OUT_DIR ++ [t.name ++ ".css"])))
      else none
    rootId := t.rootId }

/-- The tree after the builds of `ts` have run, in order. -/
def buildFsAfter (oracle : String → BuildOutcome) (ts : List Target) (fs : FsNode) : FsNode :=
  ts.foldl (fun f t => applyBuild f t.name (oracle t.name)) fs

theorem buildFsAfter_cons (oracle : String → BuildOutcome) (t : Target)
    (rest : List Target) (fs : FsNode) :
    buildFsAfter oracle (t :: rest) fs =
      buildFsAfter oracle rest (applyBuild fs t.name (oracle t.name)) := rfl

/-- None of the per-widget output files exists yet for any of the names. -/
def cleanOut (fs : FsNode) (names : List String) : Prop :=
  ∀ n ∈ names, fsExists fs (OUT_DIR ++ [n ++ ".js"]) = false ∧
    fsExists fs (OUT_DIR ++ [n ++ ".css"]) = false

theorem fsExists_applyBuild_other (fs : FsNode) (name s : String) (o : BuildOutcome)
    (h1 : ¬(name ++ ".js" = s)) (h2 : ¬(name ++ ".css" = s)) :
    fsExists (applyBuild fs name o) (OUT_DIR ++ [s]) = fsExists fs (OUT_DIR ++ [s]) := by
  rw [applyBuild]
  cases hj : o.emitsJs <;> cases hc : o.emitsCss <;>
    simp [hj, hc, fsExists_writeFileAt_sibling _ _ _ _ _ h1,
      fsExists_writeFileAt_sibling _ _ _ _ _ h2]

theorem fsExists_applyBuild_js (fs : FsNode) (name : String) (o : BuildOutcome)
    (h : o.emitsJs = true) :
    fsExists (applyBuild fs name o) (OUT_DIR ++ [name ++ ".js"]) = true := by
  have hne : ¬(name ++ ".css" = name ++ ".js") := append_css_ne_js name name
  rw [applyBuild]
  cases hc : o.emitsCss <;>
    simp [h, hc, fsExists_writeFileAt_self, fsExists_writeFileAt_sibling _ _ _ _ _ hne]

theorem fsExists_applyBuild_no_js (fs : FsNode) (name : String) (o : BuildOutcome)
    (h : o.emitsJs = false) :
    fsExists (applyBuild fs name o) (OUT_DIR ++ [name ++ ".js"]) =
      fsExists fs (OUT_DIR ++ [name ++ ".js"]) := by
  have hne : ¬(name ++ ".css" = name ++ ".js") := append_css_ne_js name name
  rw [applyBuild]
  cases hc : o.emitsCss <;> simp [h, hc, fsExists_writeFileAt_sibling _ _ _ _ _ hne]

theorem fsExists_applyBuild_css (fs : FsNode) (name : String) (o : BuildOutcome)
    (hfs : fsExists fs (OUT_DIR ++ [name ++ ".css"]) = false) :
    fsExists (applyBuild fs name o) (OUT_DIR ++ [name ++ ".css"]) = o.emitsCss := by
  have hne : ¬(name ++ ".js" = name ++ ".css") := append_js_ne_css name name
  rw [applyBuild]
  cases hj : o.emitsJs <;> cases hc : o.emitsCss <;>
    simp [hj, hc, hfs, fsExists_writeFileAt_self,
      fsExists_writeFileAt_sibling _ _ _ _ _ hne]

theorem setAssoc_of_not_mem (m : List (String × ManifestEntry)) (k : String)
    (v : ManifestEntry) (h : ∀ e ∈ m, ¬(e.1 = k)) :
    setAssoc m k v = m ++ [(k, v)] := by
  induction m with
  | nil => rfl
  | cons e rest ih =>
    obtain ⟨k', v'⟩ := e
    have hk : (k' == k) = false := by
      simpa using h (k', v') (List.mem_cons_self _ _)
    rw [setAssoc]
    simp only [hk]
    rw [ih (fun e he => h e (List.mem_cons_of_mem _ he))]
    simp

theorem fsExists_buildFsAfter_other (oracle : String → BuildOutcome) :
    ∀ (ts : List Target) (fs : FsNode) (s : String),
      (∀ t ∈ ts, ¬(t.name ++ ".js" = s) ∧ ¬(t.name ++ ".css" = s)) →
      fsExists (buildFsAfter oracle ts fs) (OUT_DIR ++ [s]) =
        fsExists fs (OUT_DIR ++ [s]) := by
  intro ts
  induction ts with
  | nil => intro fs s _; rfl
  | cons t rest ih =>
    intro fs s h
    rw [buildFsAfter_cons]
    rw [ih _ s (fun u hu => h u (List.mem_cons_of_mem _ hu))]
    have h1 := h t (List.mem_cons_self _ _)
    exact fsExists_applyBuild_other _ _ _ _ h1.1 h1.2

theorem okBuild_elim (o : BuildOutcome) (h : okBuild o = true) :
    o.throws = false ∧ o.emitsJs = true := by
  rw [okBuild, Bool.and_eq_true] at h
  exact ⟨by simpa using h.1, h.2⟩

theorem buildLoop_ok (oracle : String → BuildOutcome) :
    ∀ (ts : List Target) (fs : FsNode) (acc : List (String × ManifestEntry)),
      (∀ t ∈ ts, okBuild (oracle t.name) = true) →
      (ts.map Target.name).Nodup →
      cleanOut fs (ts.map Target.name) →
      (∀ t ∈ ts, ∀ e ∈ acc, ¬(e.1 = t.name)) →
      buildLoop oracle ts fs acc =
        (ts.map fun t => Event.buildInvoked t.name,
         buildFsAfter oracle ts fs,
         .ok (acc ++ ts.map fun t => (t.name, manifestEntryFor oracle t))) := by
  intro ts
  induction ts with
  | nil =>
    intro fs acc _ _ _ _
    simp [buildLoop, buildFsAfter]
  | cons t rest ih =>
    intro fs acc hok hnodup hclean hacc
    have hokt := okBuild_elim _ (hok t (List.mem_cons_self _ _))
    have hjs : fsExists (applyBuild fs t.name (oracle t.name))
        (OUT_DIR ++ [t.name ++ ".js"]) = true :=
      fsExists_applyBuild_js _ _ _ hokt.2
    have hcssfs : fsExists fs (OUT_DIR ++ [t.name ++ ".css"]) = false :=
      (hclean t.name (by simp)).2
    have hcss : fsExists (applyBuild fs t.name (oracle t.name))
        (OUT_DIR ++ [t.name ++ ".css"]) = (oracle t.name).emitsCss :=
      fsExists_applyBuild_css _ _ _ hcssfs
    have hnodup' : (∀ x ∈ rest, ¬(x.name = t.name)) ∧ (rest.map Target.name).Nodup := by
      simpa using hnodup
    have hsetAssoc : setAssoc acc t.name (manifestEntryFor oracle t) =
        acc ++ [(t.name, manifestEntryFor oracle t)] :=
      setAssoc_of_not_mem _ _ _ (fun e he => hacc t (List.mem_cons_self _ _) e he)
    have hclean' : cleanOut (applyBuild fs t.name (oracle t.name)) (rest.map Target.name) := by
      intro n hn
      have hneq : ¬(n = t.name) := by
        intro h
        obtain ⟨u, hu, hun⟩ := List.mem_map.mp hn
        exact hnodup'.1 u hu (by rw [hun, h])
      have h1 : ¬(t.name ++ ".js" = n ++ ".js") :=
        fun h => hneq (append_js_inj _ _ h).symm
      have h2 : ¬(t.name ++ ".css" = n ++ ".js") := append_css_ne_js _ _
      have h3 : ¬(t.name ++ ".js" = n ++ ".css") := append_js_ne_css _ _
      have h4 : ¬(t.name ++ ".css" = n ++ ".css") :=
        fun h => hneq (append_css_inj _ _ h).symm
      obtain ⟨hc1, hc2⟩ := hclean n (List.mem_cons_of_mem _ hn)
      exact ⟨by rw [fsExists_applyBuild_other _ _ _ _ h1 h2]; exact hc1,
             by rw [fsExists_applyBuild_other _ _ _ _ h3 h4]; exact hc2⟩
    have hacc' : ∀ u ∈ rest, ∀ e ∈ acc ++ [(t.name, manifestEntryFor oracle t)],
        ¬(e.1 = u.name) := by
      intro u hu e he
      rcases List.mem_append.mp he with he | he
      · exact hacc u (List.mem_cons_of_mem _ hu) e he
      · have he' : e = (t.name, manifestEntryFor oracle t) := by simpa using he
        rw [he']
        intro hh
        exact hnodup'.1 u hu hh.symm
    have hrec := ih (applyBuild fs t.name (oracle t.name))
      (acc ++ [(t.name, manifestEntryFor oracle t)])
      (fun u hu => hok u (List.mem_cons_of_mem _ hu)) hnodup'.2 hclean' hacc'
    simp only [buildLoop, hokt.1, hjs, hcss, Bool.false_eq_true, if_false]
    simp only [manifestEntryFor] at hsetAssoc
    rw [hsetAssoc]
    simp only [manifestEntryFor] at hrec
    rw [hrec]
    simp [buildFsAfter_cons, manifestEntryFor]

theorem buildLoop_fail (oracle : String → BuildOutcome) :
    ∀ (ts : List Target) (fs : FsNode) (acc : List (String × ManifestEntry)),
      ¬(∀ t ∈ ts, okBuild (oracle t.name) = true) →
      (ts.map Target.name).Nodup →
      cleanOut fs (ts.map Target.name) →
      (∀ t ∈ ts, ∀ e ∈ acc, ¬(e.1 = t.name)) →
      ∃ evs fsX e, buildLoop oracle ts fs acc = (evs, fsX, .error e) ∧
        (∀ s, fsExists fs (OUT_DIR ++ [s]) = false →
          (∀ t ∈ ts, ¬(t.name ++ ".js" = s) ∧ ¬(t.name ++ ".css" = s)) →
          fsExists fsX (OUT_DIR ++ [s]) = false) := by
  intro ts
  induction ts with
  | nil =>
    intro fs acc h _ _ _
    exact absurd (by simp) h
  | cons t rest ih =>
    intro fs acc hbad hnodup hclean hacc
    have hnodup' : (∀ x ∈ rest, ¬(x.name = t.name)) ∧ (rest.map Target.name).Nodup := by
      simpa using hnodup
    by_cases hokt : okBuild (oracle t.name) = true
    · -- the head target succeeds; some later target fails
      obtain ⟨hthrows, hemits⟩ := okBuild_elim _ hokt
      have hjs : fsExists (applyBuild fs t.name (oracle t.name))
          (OUT_DIR ++ [t.name ++ ".js"]) = true :=
        fsExists_applyBuild_js _ _ _ hemits
      have hcssfs : fsExists fs (OUT_DIR ++ [t.name ++ ".css"]) = false :=
        (hclean t.name (by simp)).2
      have hcss : fsExists (applyBuild fs t.name (oracle t.name))
          (OUT_DIR ++ [t.name ++ ".css"]) = (oracle t.name).emitsCss :=
        fsExists_applyBuild_css _ _ _ hcssfs
      have hbad' : ¬(∀ u ∈ rest, okBuild (oracle u.name) = true) := by
        intro hall
        apply hbad
        intro u hu
        rcases List.mem_cons.mp hu with h | h
        · rw [h]; exact hokt
        · exact hall u h
      have hclean' : cleanOut (applyBuild fs t.name (oracle t.name)) (rest.map Target.name) := by
        intro n hn
        have hneq : ¬(n = t.name) := by
          intro h
          obtain ⟨u, hu, hun⟩ := List.mem_map.mp hn
          exact hnodup'.1 u hu (by rw [hun, h])
        have h1 : ¬(t.name ++ ".js" = n ++ ".js") :=
          fun h => hneq (append_js_inj _ _ h).symm
        have h2 : ¬(t.name ++ ".css" = n ++ ".js") := append_css_ne_js _ _
        have h3 : ¬(t.name ++ ".js" = n ++ ".css") := append_js_ne_css _ _
        have h4 : ¬(t.name ++ ".css" = n ++ ".css") :=
          fun h => hneq (append_css_inj _ _ h).symm
        obtain ⟨hc1, hc2⟩ := hclean n (List.mem_cons_of_mem _ hn)
        exact ⟨by rw [fsExists_applyBuild_other _ _ _ _ h1 h2]; exact hc1,
               by rw [fsExists_applyBuild_other _ _ _ _ h3 h4]; exact hc2⟩
      have hacc' : ∀ u ∈ rest, ∀ e ∈ setAssoc acc t.name
          (manifestEntryFor oracle t), ¬(e.1 = u.name) := by
        rw [setAssoc_of_not_mem _ _ _ (fun e he => hacc t (List.mem_cons_self _ _) e he)]
        intro u hu e he
        rcases List.mem_append.mp he with he | he
        · exact hacc u (List.mem_cons_of_mem _ hu) e he
        · have he' : e = (t.name, manifestEntryFor oracle t) := by simpa using he
          rw [he']
          intro hh
          exact hnodup'.1 u hu hh.symm
      obtain ⟨evs, fsX, e, heq, hpres⟩ :=
        ih (applyBuild fs t.name (oracle t.name))
          (setAssoc acc t.name (manifestEntryFor oracle t)) hbad' hnodup'.2 hclean' hacc'
      refine ⟨.buildInvoked t.name :: evs, fsX, e, ?_, ?_⟩
      · simp only [buildLoop, hthrows, hjs, hcss, Bool.false_eq_true, if_false]
        simp only [manifestEntryFor] at heq
        rw [heq]
        simp
      · intro s hs hdist
        have h1 := hdist t (List.mem_cons_self _ _)
        refine hpres s ?_ (fun u hu => hdist u (List.mem_cons_of_mem _ hu))
        rw [fsExists_applyBuild_other _ _ _ _ h1.1 h1.2]
        exact hs
    · -- the head target itself fails
      have hpres1 : ∀ s, fsExists fs (OUT_DIR ++ [s]) = false →
          ¬(t.name ++ ".js" = s) → ¬(t.name ++ ".css" = s) →
          fsExists (applyBuild fs t.name (oracle t.name)) (OUT_DIR ++ [s]) = false := by
        intro s hs h1 h2
        rw [fsExists_applyBuild_other _ _ _ _ h1 h2]
        exact hs
      by_cases hthrows : (oracle t.name).throws = true
      · refine ⟨[.buildInvoked t.name], applyBuild fs t.name (oracle t.name),
          "vite build rejected", ?_, ?_⟩
        · simp only [buildLoop, hthrows, if_true]
        · intro s hs hdist
          have h1 := hdist t (List.mem_cons_self _ _)
          exact hpres1 s hs h1.1 h1.2
      · have hthrows' : (oracle t.name).throws = false := by
          cases h : (oracle t.name).throws with
          | true => exact absurd h hthrows
          | false => rfl
        have hemits : (oracle t.name).emitsJs = false := by
          cases h : (oracle t.name).emitsJs with
          | true =>
            exact absurd (by rw [okBuild, Bool.and_eq_true, hthrows']; simp [h]) hokt
          | false => rfl
        have hjsfs : fsExists fs (OUT_DIR ++ [t.name ++ ".js"]) = false :=
          (hclean t.name (by simp)).1
        have hjs : fsExists (applyBuild fs t.name (oracle t.name))
            (OUT_DIR ++ [t.name ++ ".js"]) = false := by
          rw [fsExists_applyBuild_no_js _ _ _ hemits]
          exact hjsfs
        refine ⟨[.buildInvoked t.name], applyBuild fs t.name (oracle t.name),
          missingJsMessage t.name, ?_, ?_⟩
        · simp only [buildLoop, hthrows', hjs, Bool.false_eq_true, if_false, if_true]
        · intro s hs hdist
          have h1 := hdist t (List.mem_cons_self _ _)
          exact hpres1 s hs h1.1 h1.2

theorem buildLoop_cons_ok (oracle : String → BuildOutcome) (u : Target)
    (L : List Target) (fs : FsNode) (acc : List (String × ManifestEntry))
    (hok : okBuild (oracle u.name) = true)
    (hcssfs : fsExists fs (OUT_DIR ++ [u.name ++ ".css"]) = false) :
    buildLoop oracle (u :: L) fs acc =
      (.buildInvoked u.name :: (buildLoop oracle L (applyBuild fs u.name (oracle u.name))
          (setAssoc acc u.name (manifestEntryFor oracle u))).1,
       (buildLoop oracle L (applyBuild fs u.name (oracle u.name))
          (setAssoc acc u.name (manifestEntryFor oracle u))).2) := by
  obtain ⟨hthrows, hemits⟩ := okBuild_elim _ hok
  have hjs := fsExists_applyBuild_js fs u.name _ hemits
  have hcss := fsExists_applyBuild_css fs u.name (oracle u.name) hcssfs
  simp only [buildLoop, hthrows, hjs, hcss, Bool.false_eq_true, if_false, manifestEntryFor]
  simp

theorem buildLoop_missing_js (oracle : String → BuildOutcome) :
    ∀ (pre : List Target) (t : Target) (post : List Target) (fs : FsNode)
      (acc : List (String × ManifestEntry)),
      (∀ u ∈ pre, okBuild (oracle u.name) = true) →
      (oracle t.name).throws = false →
      (oracle t.name).emitsJs = false →
      ((pre ++ t :: post).map Target.name).Nodup →
      cleanOut fs ((pre ++ t :: post).map Target.name) →
      ∃ fsX, buildLoop oracle (pre ++ t :: post) fs acc =
        ((pre ++ [t]).map fun u => Event.buildInvoked u.name, fsX,
          .error (missingJsMessage t.name)) := by
  intro pre
  induction pre with
  | nil =>
    intro t post fs acc _ hthrows hemits hnodup hclean
    have hjsfs : fsExists fs (OUT_DIR ++ [t.name ++ ".js"]) = false :=
      (hclean t.name (by simp)).1
    have hjs : fsExists (applyBuild fs t.name (oracle t.name))
        (OUT_DIR ++ [t.name ++ ".js"]) = false := by
      rw [fsExists_applyBuild_no_js _ _ _ hemits]
      exact hjsfs
    refine ⟨applyBuild fs t.name (oracle t.name), ?_⟩
    simp only [List.nil_append, buildLoop, hthrows, hjs, Bool.false_eq_true,
      if_false, if_true]
    simp
  | cons u pre' ih =>
    intro t post fs acc hpre hthrows hemits hnodup hclean
    have hnodupAll : ((∀ x ∈ pre', ¬(x.name = u.name)) ∧ ¬(u.name = t.name) ∧
        ∀ x ∈ post, ¬(x.name = u.name)) ∧
        (List.map Target.name pre' ++ t.name :: List.map Target.name post).Nodup := by
      simpa using hnodup
    have hnodupTail : ((pre' ++ t :: post).map Target.name).Nodup := by
      simpa using hnodupAll.2
    have hheadNe : ∀ x ∈ pre' ++ t :: post, ¬(x.name = u.name) := by
      intro x hx
      rcases List.mem_append.mp hx with h | h
      · exact hnodupAll.1.1 x h
      · rcases List.mem_cons.mp h with h | h
        · rw [h]
          intro hh
          exact hnodupAll.1.2.1 hh.symm
        · exact hnodupAll.1.2.2 x h
    have hcssfs : fsExists fs (OUT_DIR ++ [u.name ++ ".css"]) = false :=
      (hclean u.name (by simp)).2
    have hclean' : cleanOut (applyBuild fs u.name (oracle u.name))
        ((pre' ++ t :: post).map Target.name) := by
      intro n hn
      have hneq : ¬(n = u.name) := by
        intro h
        obtain ⟨x, hx, hxn⟩ := List.mem_map.mp hn
        exact hheadNe x hx (by rw [hxn, h])
      have h1 : ¬(u.name ++ ".js" = n ++ ".js") :=
        fun h => hneq (append_js_inj _ _ h).symm
      have h2 : ¬(u.name ++ ".css" = n ++ ".js") := append_css_ne_js _ _
      have h3 : ¬(u.name ++ ".js" = n ++ ".css") := append_js_ne_css _ _
      have h4 : ¬(u.name ++ ".css" = n ++ ".css") :=
        fun h => hneq (append_css_inj _ _ h).symm
      obtain ⟨hc1, hc2⟩ := hclean n (by simpa using Or.inr (by simpa using hn))
      exact ⟨by rw [fsExists_applyBuild_other _ _ _ _ h1 h2]; exact hc1,
             by rw [fsExists_applyBuild_other _ _ _ _ h3 h4]; exact hc2⟩
    obtain ⟨fsX, heq⟩ := ih t post (applyBuild fs u.name (oracle u.name))
      (setAssoc acc u.name (manifestEntryFor oracle u))
      (fun x hx => hpre x (List.mem_cons_of_mem _ hx)) hthrows hemits hnodupTail hclean'
    refine ⟨fsX, ?_⟩
    rw [List.cons_append,
      buildLoop_cons_ok oracle u _ fs acc (hpre u (List.mem_cons_self _ _)) hcssfs,
      heq]
    simp

theorem buildLoop_events (oracle : String → BuildOutcome) :
    ∀ (ts : List Target) (fs : FsNode) (acc : List (String × ManifestEntry)),
      ∀ ev ∈ (buildLoop oracle ts fs acc).1, ∃ n, ev = Event.buildInvoked n := by
  intro ts
  induction ts with
  | nil =>
    intro fs acc ev h
    simp [buildLoop] at h
  | cons t rest ih =>
    intro fs acc ev h
    simp only [buildLoop] at h
    by_cases h1 : (oracle t.name).throws = true
    · rw [if_pos h1] at h
      simp at h
      exact ⟨t.name, h⟩
    · rw [if_neg h1] at h
      by_cases h2 : fsExists (applyBuild fs t.name (oracle t.name))
          (OUT_DIR ++ [t.name ++ ".js"]) = false
      · rw [if_pos h2] at h
        simp at h
        exact ⟨t.name, h⟩
      · rw [if_neg h2] at h
        simp only [List.mem_cons] at h
        rcases h with h | h
        · exact ⟨t.name, h⟩
        · exact ih _ _ ev h

/-! ### The claims about `main` -/

/-- C8: a missing source root aborts the run before discovery, before the
output-directory reset and before any build: no events occur, the tree is
left untouched (no output produced), the error names the directory, no
manifest exists, and the exit code is 1. -/
theorem runMain_missing_src (fs : FsNode) (oracle : String → BuildOutcome)
    (h : fsExists fs SRC_ROOT = false) :
    runMain fs oracle =
      ⟨[], fs, none, some ("Directory not found: " ++ joinSlash SRC_ROOT), 1⟩ := by
  simp [runMain, h]

/-- A tree without a `src` directory. -/
def wFsNoSrc : FsNode := .dir [("dist", .dir [("widgets", .dir [])])]

theorem runMain_missing_src_witness :
    runMain wFsNoSrc (fun _ => ⟨false, true, true⟩) =
      ⟨[], wFsNoSrc, none, some ("Directory not found: " ++ joinSlash SRC_ROOT), 1⟩ :=
  runMain_missing_src wFsNoSrc (fun _ => ⟨false, true, true⟩) (by decide)

/-- C3 (amended): the output directory is destructively reset only on runs
that discover at least one target — and then the reset is the very first
observable step, strictly before every build invocation and never repeated;
a run that discovers zero targets returns early, performing no reset and
leaving the filesystem untouched. -/
theorem runMain_reset_iff_targets (fs : FsNode) (oracle : String → BuildOutcome)
    (ts : List Target) (hs : fsExists fs SRC_ROOT = true)
    (hd : discoverEntries fs = .ok ts) :
    (¬(ts = []) → ∃ evs, (runMain fs oracle).events = Event.outputReset :: evs ∧
      Event.outputReset ∉ evs) ∧
    (ts = [] → runMain fs oracle = ⟨[], fs, none, none, 0⟩) := by
  constructor
  · intro hne
    cases ts with
    | nil => exact absurd rfl hne
    | cons t ts' =>
      rcases hbl : buildLoop oracle (t :: ts') (prepareOutput fs) [] with ⟨evs, fs₂, res⟩
      have hevs : ∀ ev ∈ evs, ∃ n, ev = Event.buildInvoked n := by
        intro ev hev
        have hall := buildLoop_events oracle (t :: ts') (prepareOutput fs) [] ev
        rw [hbl] at hall
        exact hall hev
      have hnores : Event.outputReset ∉ evs := by
        intro hmem
        obtain ⟨n, hn⟩ := hevs _ hmem
        cases hn
      cases res with
      | error e =>
        refine ⟨evs, ?_, hnores⟩
        simp [runMain, hs, hd, hbl]
      | ok m =>
        refine ⟨evs ++ [Event.manifestWritten], ?_, ?_⟩
        · simp [runMain, hs, hd, hbl]
        · intro hmem
          rcases List.mem_append.mp hmem with h | h
          · exact hnores h
          · simp at h
  · intro hnil
    subst hnil
    simp [runMain, hs, hd]

/-- A tree whose single source subdirectory has no entry file, while a
stale file sits in the output directory. -/
def cexFsZeroTargets : FsNode :=
  .dir [("src", .dir [("w", .dir [("readme.md", .file "")])]),
        ("dist", .dir [("widgets", .dir [("stale.txt", .file "old")])])]

/-- C3 counterexample: on a run that discovers zero targets, `main` returns
before `prepareOutput`, so nothing is reset — no reset event occurs and the
stale file inside the output directory survives the run.  The output
directory is therefore not reset on every run. -/
theorem runMain_no_reset_on_zero_targets_cex :
    (runMain cexFsZeroTargets (fun _ => ⟨false, true, true⟩)).events = [] ∧
    Event.outputReset ∉ (runMain cexFsZeroTargets (fun _ => ⟨false, true, true⟩)).events ∧
    fsExists (runMain cexFsZeroTargets (fun _ => ⟨false, true, true⟩)).fs
      (OUT_DIR ++ ["stale.txt"]) = true := by
  decide

/-- A tree with exactly one widget directory. -/
def wFsOneTarget : FsNode :=
  .dir [("src", .dir [("w", .dir [("index.tsx", .file "x")])]),
        ("dist", .dir [("widgets", .dir [("stale.txt", .file "old")])])]

/-- An oracle whose builds all succeed and emit both outputs. -/
def wOracleOk : String → BuildOutcome := fun _ => ⟨false, true, true⟩

/-- The target discovery finds in `wFsOneTarget`. -/
def wTargetW : Target := ⟨"w", ["src", "w", "index.tsx"], "x", "w-root"⟩

theorem runMain_reset_iff_targets_witness :
    ∃ evs, (runMain wFsOneTarget wOracleOk).events = Event.outputReset :: evs ∧
      Event.outputReset ∉ evs :=
  (runMain_reset_iff_targets wFsOneTarget wOracleOk [wTargetW] (by decide)
    (by rfl)).1 (by decide)

/-- C4: on a run with at least one discovered target, the manifest is
written exactly once — as the final step, after every target has built and
been verified — and holds exactly one record per target, in discovery
order; while if any target's build rejects or its JS-output verification
fails, no manifest file exists after the run and the exit code is 1. -/
theorem runMain_manifest_once (fs : FsNode) (oracle : String → BuildOutcome)
    (ts : List Target) (hs : fsExists fs SRC_ROOT = true)
    (hd : discoverEntries fs = .ok ts) (hne : ¬(ts = []))
    (hnodup : (ts.map Target.name).Nodup) :
    ((∀ t ∈ ts, okBuild (oracle t.name) = true) →
      (runMain fs oracle).events =
        Event.outputReset :: ((ts.map fun t => Event.buildInvoked t.name)
          ++ [Event.manifestWritten]) ∧
      (runMain fs oracle).manifest =
        some (ts.map fun t => (t.name, manifestEntryFor oracle t)) ∧
      (runMain fs oracle).error = none ∧ (runMain fs oracle).exitCode = 0 ∧
      fsExists (runMain fs oracle).fs MANIFEST_PATH = true) ∧
    (¬(∀ t ∈ ts, okBuild (oracle t.name) = true) →
      (runMain fs oracle).manifest = none ∧
      (runMain fs oracle).error.isSome = true ∧
      (runMain fs oracle).exitCode = 1 ∧
      fsExists (runMain fs oracle).fs MANIFEST_PATH = false ∧
      Event.manifestWritten ∉ (runMain fs oracle).events) := by
  cases ts with
  | nil => exact absurd rfl hne
  | cons t ts' =>
    have hclean : cleanOut (prepareOutput fs) ((t :: ts').map Target.name) := by
      intro n _
      exact ⟨prepareOutput_clean fs [n ++ ".js"] (by simp),
             prepareOutput_clean fs [n ++ ".css"] (by simp)⟩
    constructor
    · intro hok
      have hbl := buildLoop_ok oracle (t :: ts') (prepareOutput fs) [] hok hnodup hclean
        (by simp)
      refine ⟨?_, ?_, ?_, ?_, ?_⟩ <;>
        simp [runMain, hs, hd, hbl, fsExists_writeFileAt_self]
    · intro hbad
      obtain ⟨evs, fsX, e, heq, hpres⟩ := buildLoop_fail oracle (t :: ts')
        (prepareOutput fs) [] hbad hnodup hclean (by simp)
      have hman : fsExists fsX (OUT_DIR ++ ["manifest.json"]) = false := by
        refine hpres "manifest.json" (prepareOutput_clean fs ["manifest.json"] (by simp)) ?_
        intro u _
        exact ⟨append_js_ne_manifest _, append_css_ne_manifest _⟩
      have hevs : ∀ ev ∈ evs, ∃ n, ev = Event.buildInvoked n := by
        intro ev hev
        have hall := buildLoop_events oracle (t :: ts') (prepareOutput fs) [] ev
        rw [heq] at hall
        exact hall hev
      refine ⟨?_, ?_, ?_, ?_, ?_⟩
      · simp [runMain, hs, hd, heq]
      · simp [runMain, hs, hd, heq]
      · simp [runMain, hs, hd, heq]
      · have hfs : (runMain fs oracle).fs = fsX := by simp [runMain, hs, hd, heq]
        rw [hfs, MANIFEST_PATH]
        exact hman
      · have hev : (runMain fs oracle).events = Event.outputReset :: evs := by
          simp [runMain, hs, hd, heq]
        rw [hev]
        intro hmem
        rcases List.mem_cons.mp hmem with h | h
        · cases h
        · obtain ⟨n, hn⟩ := hevs _ h
          cases hn

theorem runMain_manifest_once_witness :
    (runMain wFsOneTarget wOracleOk).manifest =
      some ([wTargetW].map fun t => (t.name, manifestEntryFor wOracleOk t)) ∧
    fsExists (runMain wFsOneTarget wOracleOk).fs MANIFEST_PATH = true :=
  have h := (runMain_manifest_once wFsOneTarget wOracleOk [wTargetW] (by decide)
    (by rfl) (by decide) (by decide)).1 (by decide)
  ⟨h.2.1, h.2.2.2.2⟩

/-- C7: after each build the orchestrator verifies that `<name>.js` exists
in the output directory; when target `t`'s build resolves but leaves no JS
file, the run aborts with an error naming the missing path, no target
after `t` is ever built, and the exit code is 1. -/
theorem runMain_missing_js_aborts (fs : FsNode) (oracle : String → BuildOutcome)
    (pre : List Target) (t : Target) (post : List Target)
    (hs : fsExists fs SRC_ROOT = true)
    (hd : discoverEntries fs = .ok (pre ++ t :: post))
    (hnodup : ((pre ++ t :: post).map Target.name).Nodup)
    (hpre : ∀ u ∈ pre, okBuild (oracle u.name) = true)
    (hthrows : (oracle t.name).throws = false)
    (hemits : (oracle t.name).emitsJs = false) :
    (runMain fs oracle).error = some ("Expected JavaScript output for \"" ++ t.name
        ++ "\" not found: " ++ joinSlash (OUT_DIR ++ [t.name ++ ".js"])) ∧
    (runMain fs oracle).events =
      Event.outputReset :: (pre ++ [t]).map (fun u => Event.buildInvoked u.name) ∧
    (∀ u ∈ post, Event.buildInvoked u.name ∉ (runMain fs oracle).events) ∧
    (runMain fs oracle).exitCode = 1 := by
  obtain ⟨h0, rest0, hL⟩ : ∃ h0 rest0, pre ++ t :: post = h0 :: rest0 := by
    cases pre with
    | nil => exact ⟨t, post, rfl⟩
    | cons p pre' => exact ⟨p, pre' ++ t :: post, rfl⟩
  have hd' : discoverEntries fs = .ok (h0 :: rest0) := by rw [hd, hL]
  have hclean : cleanOut (prepareOutput fs) ((pre ++ t :: post).map Target.name) := by
    intro n _
    exact ⟨prepareOutput_clean fs [n ++ ".js"] (by simp),
           prepareOutput_clean fs [n ++ ".css"] (by simp)⟩
  obtain ⟨fsX, heq⟩ := buildLoop_missing_js oracle pre t post (prepareOutput fs) []
    hpre hthrows hemits hnodup hclean
  have heq' : buildLoop oracle (h0 :: rest0) (prepareOutput fs) [] =
      ((pre ++ [t]).map fun u => Event.buildInvoked u.name, fsX,
        .error (missingJsMessage t.name)) := by
    rw [← hL]
    exact heq
  have hev : (runMain fs oracle).events =
      Event.outputReset :: (pre ++ [t]).map (fun u => Event.buildInvoked u.name) := by
    simp [runMain, hs, hd', heq']
  refine ⟨?_, hev, ?_, ?_⟩
  · simp [runMain, hs, hd', heq', missingJsMessage]
  · intro u hu
    rw [hev]
    have hsep : List.Disjoint (List.map Target.name pre)
        (t.name :: List.map Target.name post) := by
      apply List.disjoint_of_nodup_append
      simpa using hnodup
    have hpostNodup : (t.name :: List.map Target.name post).Nodup :=
      (by simpa using hnodup : ((List.map Target.name pre) ++
        t.name :: List.map Target.name post).Nodup).of_append_right
    intro hmem
    rcases List.mem_cons.mp hmem with h | h
    · cases h
    · obtain ⟨v, hv, hveq⟩ := List.mem_map.mp h
      have hname : v.name = u.name := by injection hveq
      have huname : u.name ∈ List.map Target.name post :=
        List.mem_map_of_mem Target.name hu
      rcases List.mem_append.mp hv with hvp | hvt
      · exact hsep (hname ▸ List.mem_map_of_mem Target.name hvp)
          (List.mem_cons_of_mem _ huname)
      · have hvt' : v = t := by simpa using hvt
        rw [hvt'] at hname
        exact (List.nodup_cons.mp hpostNodup).1 (hname ▸ huname)
  · simp [runMain, hs, hd', heq']

/-- An oracle whose builds resolve but emit nothing. -/
def wOracleNoJs : String → BuildOutcome := fun _ => ⟨false, false, false⟩

theorem runMain_missing_js_aborts_witness :
    (runMain wFsOneTarget wOracleNoJs).error =
      some ("Expected JavaScript output for \"" ++ "w"
        ++ "\" not found: " ++ joinSlash (OUT_DIR ++ ["w" ++ ".js"])) ∧
    (runMain wFsOneTarget wOracleNoJs).exitCode = 1 :=
  have h := runMain_missing_js_aborts wFsOneTarget wOracleNoJs [] wTargetW []
    (by decide) (by rfl) (by decide) (by simp) (by decide) (by decide)
  ⟨h.1, h.2.2.2⟩

theorem fsExists_buildFsAfter_css (oracle : String → BuildOutcome) :
    ∀ (ts : List Target) (fs : FsNode) (t : Target), t ∈ ts →
      (ts.map Target.name).Nodup →
      cleanOut fs (ts.map Target.name) →
      fsExists (buildFsAfter oracle ts fs) (OUT_DIR ++ [t.name ++ ".css"]) =
        (oracle t.name).emitsCss := by
  intro ts
  induction ts with
  | nil =>
    intro fs t h
    cases h
  | cons u rest ih =>
    intro fs t hmem hnodup hclean
    have hnodup' : (∀ x ∈ rest, ¬(x.name = u.name)) ∧ (rest.map Target.name).Nodup := by
      simpa using hnodup
    rw [buildFsAfter_cons]
    rcases List.mem_cons.mp hmem with heq | hmem'
    · subst heq
      have hcss : fsExists (applyBuild fs t.name (oracle t.name))
          (OUT_DIR ++ [t.name ++ ".css"]) = (oracle t.name).emitsCss :=
        fsExists_applyBuild_css _ _ _ (hclean t.name (by simp)).2
      rw [fsExists_buildFsAfter_other oracle rest _ _ ?_]
      · exact hcss
      · intro v hv
        have hneq : ¬(v.name = t.name) := hnodup'.1 v hv
        exact ⟨append_js_ne_css _ _, fun h => hneq (append_css_inj _ _ h)⟩
    · have hclean' : cleanOut (applyBuild fs u.name (oracle u.name))
          (rest.map Target.name) := by
        intro n hn
        have hneq : ¬(n = u.name) := by
          intro h
          obtain ⟨x, hx, hxn⟩ := List.mem_map.mp hn
          exact hnodup'.1 x hx (by rw [hxn, h])
        have h1 : ¬(u.name ++ ".js" = n ++ ".js") :=
          fun h => hneq (append_js_inj _ _ h).symm
        have h2 : ¬(u.name ++ ".css" = n ++ ".js") := append_css_ne_js _ _
        have h3 : ¬(u.name ++ ".js" = n ++ ".css") := append_js_ne_css _ _
        have h4 : ¬(u.name ++ ".css" = n ++ ".css") :=
          fun h => hneq (append_css_inj _ _ h).symm
        obtain ⟨hc1, hc2⟩ := hclean n (List.mem_cons_of_mem _ hn)
        exact ⟨by rw [fsExists_applyBuild_other _ _ _ _ h1 h2]; exact hc1,
               by rw [fsExists_applyBuild_other _ _ _ _ h3 h4]; exact hc2⟩
      exact ih _ t hmem' hnodup'.2 hclean'

/-- C9: in a run whose targets all build successfully, each target's
manifest record has `css = null` exactly when no `<name>.css` file exists
in the output directory after that target's build (nothing later in the
run touches that file, so the final tree reflects that state), and a
missing CSS output never makes the run fail. -/
theorem runMain_css_nullable (fs : FsNode) (oracle : String → BuildOutcome)
    (ts : List Target) (hs : fsExists fs SRC_ROOT = true)
    (hd : discoverEntries fs = .ok ts) (hne : ¬(ts = []))
    (hnodup : (ts.map Target.name).Nodup)
    (hok : ∀ t ∈ ts, okBuild (oracle t.name) = true) :
    (runMain fs oracle).error = none ∧
    (runMain fs oracle).manifest =
      some (ts.map fun t => (t.name, manifestEntryFor oracle t)) ∧
    ∀ t ∈ ts, ((manifestEntryFor oracle t).css = none ↔
      fsExists (runMain fs oracle).fs (OUT_DIR ++ [t.name ++ ".css"]) = false) := by
  cases ts with
  | nil => exact absurd rfl hne
  | cons t0 ts' =>
    have hclean : cleanOut (prepareOutput fs) ((t0 :: ts').map Target.name) := by
      intro n _
      exact ⟨prepareOutput_clean fs [n ++ ".js"] (by simp),
             prepareOutput_clean fs [n ++ ".css"] (by simp)⟩
    have hbl := buildLoop_ok oracle (t0 :: ts') (prepareOutput fs) [] hok hnodup hclean
      (by simp)
    refine ⟨by simp [runMain, hs, hd, hbl], by simp [runMain, hs, hd, hbl], ?_⟩
    intro t hmem
    have hfs : (runMain fs oracle).fs =
        writeFileAt (buildFsAfter oracle (t0 :: ts') (prepareOutput fs))
          MANIFEST_PATH manifestFileBody := by
      simp [runMain, hs, hd, hbl]
    have hmanifest_ne : ¬("manifest.json" = t.name ++ ".css") :=
      fun h => append_css_ne_manifest t.name h.symm
    have hcssfile : fsExists (runMain fs oracle).fs (OUT_DIR ++ [t.name ++ ".css"]) =
        (oracle t.name).emitsCss := by
      rw [hfs, MANIFEST_PATH, fsExists_writeFileAt_sibling _ _ _ _ _ hmanifest_ne]
      exact fsExists_buildFsAfter_css oracle (t0 :: ts') (prepareOutput fs) t hmem
        hnodup hclean
    rw [hcssfile, manifestEntryFor]
    cases hc : (oracle t.name).emitsCss with
    | false => simp [hc]
    | true => simp [hc]

/-- An oracle whose builds succeed but emit no stylesheet. -/
def wOracleNoCss : String → BuildOutcome := fun _ => ⟨false, true, false⟩

theorem runMain_css_nullable_witness :
    (runMain wFsOneTarget wOracleNoCss).error = none ∧
    ((manifestEntryFor wOracleNoCss wTargetW).css = none ↔
      fsExists (runMain wFsOneTarget wOracleNoCss).fs
        (OUT_DIR ++ [wTargetW.name ++ ".css"]) = false) :=
  have h := runMain_css_nullable wFsOneTarget wOracleNoCss [wTargetW] (by decide)
    (by rfl) (by decide) (by decide) (by decide)
  ⟨h.1, h.2.2 wTargetW (by decide)⟩

end WidgetBuild
